import Mathlib

/-!
Verification of the rotation-curve computation and parameter-fitting engine
(`components.py`) against its natural-language specification.

The Python source is shallowly embedded: arrays become `List ℚ` (exact
rationals stand in for floats wherever only ordering, equality and field
arithmetic matter) or `List ℝ` (where genuine square roots appear),
fallible code returns `Except`/`Option`, and the hdf5-backed cache becomes
an explicit association list.
-/

namespace GalacticSpin

/-! ## Cache store (`savedata` / `loaddata` in components.py)

`savedata` merges an incoming (x, y) pair of arrays with an existing hdf5
dataset by concatenating, running Python `sorted` over `zip(x, y)` — which
orders pairs lexicographically by x and then by y — and then deleting every
element whose x equals the x of the element before it (the `while` loop at
components.py lines 228-234), finally rewriting the dataset.
-/

/-- Python `sorted(zip(x, y))` comparison: lexicographic order on pairs,
first component first. -/
def lexLe (a b : ℚ × ℚ) : Prop :=
  a.1 < b.1 ∨ (a.1 = b.1 ∧ a.2 ≤ b.2)

instance : DecidableRel lexLe := fun a b => by
  unfold lexLe; infer_instance

instance : IsTotal (ℚ × ℚ) lexLe where
  total a b := by
    rcases lt_trichotomy a.1 b.1 with h | h | h
    · exact Or.inl (Or.inl h)
    · rcases le_total a.2 b.2 with h2 | h2
      · exact Or.inl (Or.inr ⟨h, h2⟩)
      · exact Or.inr (Or.inr ⟨h.symm, h2⟩)
    · exact Or.inr (Or.inl h)

instance : IsTrans (ℚ × ℚ) lexLe where
  trans a b c hab hbc := by
    rcases hab with h1 | ⟨e1, l1⟩ <;> rcases hbc with h2 | ⟨e2, l2⟩
    · exact Or.inl (h1.trans h2)
    · exact Or.inl (e2 ▸ h1)
    · exact Or.inl (e1 ▸ h2)
    · exact Or.inr ⟨e1.trans e2, l1.trans l2⟩

instance : IsAntisymm (ℚ × ℚ) lexLe where
  antisymm a b hab hba := by
    rcases hab with h1 | ⟨e1, l1⟩
    · rcases hba with h2 | ⟨e2, l2⟩
      · exact absurd h2 (lt_asymm h1)
      · exact absurd (e2 ▸ h1) (lt_irrefl _)
    · rcases hba with h2 | ⟨e2, l2⟩
      · exact absurd (e1 ▸ h2) (lt_irrefl _)
      · exact Prod.ext e1 (le_antisymm l1 l2)

/-- The specification's reading of the sort step: a stable sort by x only
(so that, among pairs sharing an x, the pair that came earlier in the
concatenated input stays earlier). -/
def xOnlyLe (a b : ℚ × ℚ) : Prop :=
  a.1 ≤ b.1

instance : DecidableRel xOnlyLe := fun a b => by
  unfold xOnlyLe; infer_instance

/-- Inner step of the deduplication loop of `savedata`: `p` is the element
currently pointed at by the loop index; delete the next element whenever
its x equals `p`'s x, otherwise emit `p` and advance. -/
def dedupAdjAux (p : ℚ × ℚ) : List (ℚ × ℚ) → List (ℚ × ℚ)
  | [] => [p]
  | q :: rest => if q.1 = p.1 then dedupAdjAux p rest else p :: dedupAdjAux q rest

/-- The deduplication loop of `savedata` (components.py lines 228-234):
walk the sorted list and delete the next element whenever its x equals the
current element's x, i.e. keep the first element of every run of equal x. -/
def dedupAdj : List (ℚ × ℚ) → List (ℚ × ℚ)
  | [] => []
  | p :: rest => dedupAdjAux p rest

/-- The merge performed by `savedata` when the dataset already exists
(`except RuntimeError` branch, components.py lines 222-237): concatenate
old and new arrays, sort the zipped pairs with Python `sorted` (full
lexicographic order on pairs), drop adjacent duplicates by x keeping the
first of each run, and return the rewritten column arrays. -/
def savedataMerge (oldX oldY newX newY : List ℚ) : List ℚ × List ℚ :=
  let pairs := ((oldX ++ newX).zip (oldY ++ newY)).insertionSort lexLe
  let dd := dedupAdj pairs
  (dd.map Prod.fst, dd.map Prod.snd)

/-- Modelled from the spec (claim wording): merge by concatenation, sort by
x ascending only (stable, so equal-x pairs keep their input order), then
drop later duplicates sharing an x value keeping the earlier occurrence. -/
def mergeByXKeepEarlier (oldX oldY newX newY : List ℚ) : List ℚ × List ℚ :=
  let pairs := ((oldX ++ newX).zip (oldY ++ newY)).insertionSort xOnlyLe
  let dd := dedupAdj pairs
  (dd.map Prod.fst, dd.map Prod.snd)

/-- ASCII lower-casing of a character, as Python `str.lower` acts on the
ASCII group names used by components.py. -/
def lowerChar (c : Char) : Char :=
  if 65 ≤ c.toNat ∧ c.toNat ≤ 90 then Char.ofNat (c.toNat + 32) else c

/-- Python `group.lower()` on the ASCII strings used as group names. -/
def lowerString (s : String) : String :=
  String.mk (s.data.map lowerChar)

/-- Group-name normalization applied by `savedata`
(components.py lines 201-215). -/
def normalizeGroup (g : String) : String :=
  let gl := lowerString g
  if gl = "disc" ∨ gl = "disk" ∨ gl = "d" then "disk"
  else if gl = "bh" ∨ gl = "black hole" ∨ gl = "blackhole" then "blackhole"
  else if gl = "dm" ∨ gl = "dark matter" ∨ gl = "h" ∨ gl = "halo" ∨ gl = "darkmatter" then "halo"
  else if gl = "b" ∨ gl = "bulge" then "bulge"
  else if gl = "t" ∨ gl = "total" then "total"
  else g

/-- The hdf5 file contents: a keyed association of (group, dataset) to a
pair of column arrays. -/
abbrev Store : Type :=
  List ((String × String) × (List ℚ × List ℚ))

/-- Dataset lookup inside the store. -/
def lookupEntry (s : Store) (g k : String) : Option (List ℚ × List ℚ) :=
  (s.find? (fun e => e.1.1 == g && e.1.2 == k)).map Prod.snd

/-- Rewrite the value stored at (g, k). -/
def updateEntry (s : Store) (g k : String) (v : List ℚ × List ℚ) : Store :=
  s.map (fun e => if e.1.1 == g && e.1.2 == k then (e.1, v) else e)

/-- `savedata`: create the dataset if absent; if it exists
(`RuntimeError` path) merge with the stored arrays and rewrite. -/
def putEntry (s : Store) (group dataset : String) (x y : List ℚ) : Store :=
  let g := normalizeGroup group
  match lookupEntry s g dataset with
  | none => s ++ [((g, dataset), (x, y))]
  | some (ox, oy) => updateEntry s g dataset (savedataMerge ox oy x y)

example : savedataMerge [1] [5] [1] [3] = ([1], [3]) := by decide
example : mergeByXKeepEarlier [1] [5] [1] [3] = ([1], [5]) := by decide
example : savedataMerge [2, 1] [5, 6] [2, 1] [5, 6] = ([1, 2], [6, 5]) := by decide

/-- The sorted-then-deduplicated pair list produced by the `savedata`
merge, before it is split back into column arrays. -/
def mergedPairs (oldX oldY newX newY : List ℚ) : List (ℚ × ℚ) :=
  dedupAdj (((oldX ++ newX).zip (oldY ++ newY)).insertionSort lexLe)

theorem savedataMerge_eq_mergedPairs (oldX oldY newX newY : List ℚ) :
    savedataMerge oldX oldY newX newY =
      ((mergedPairs oldX oldY newX newY).map Prod.fst,
       (mergedPairs oldX oldY newX newY).map Prod.snd) := rfl

theorem dedupAdjAux_subset (l : List (ℚ × ℚ)) (p : ℚ × ℚ) :
    ∀ a ∈ dedupAdjAux p l, a ∈ p :: l := by
  induction l generalizing p with
  | nil => intro a ha; simpa [dedupAdjAux] using ha
  | cons q rest ih =>
      intro a ha
      simp only [List.mem_cons]
      by_cases h : q.1 = p.1
      · simp only [dedupAdjAux, if_pos h] at ha
        have h2 := ih p a ha
        simp only [List.mem_cons] at h2
        tauto
      · simp only [dedupAdjAux, if_neg h, List.mem_cons] at ha
        rcases ha with rfl | ha
        · tauto
        · have h2 := ih q a ha
          simp only [List.mem_cons] at h2
          tauto

theorem dedupAdjAux_fst_cover (l : List (ℚ × ℚ)) (p : ℚ × ℚ) :
    ∀ q ∈ p :: l, ∃ a ∈ dedupAdjAux p l, a.1 = q.1 := by
  induction l generalizing p with
  | nil =>
      intro q hq
      simp only [List.mem_cons, List.not_mem_nil, or_false] at hq
      exact ⟨p, by simp [dedupAdjAux], hq ▸ rfl⟩
  | cons q0 rest ih =>
      intro q hq
      simp only [List.mem_cons] at hq
      by_cases h : q0.1 = p.1
      · simp only [dedupAdjAux, if_pos h]
        rcases hq with heq | hq
        · obtain ⟨a, ha, he⟩ := ih p p (List.mem_cons_self _ _)
          exact ⟨a, ha, by rw [heq]; exact he⟩
        · rcases hq with heq | hq
          · obtain ⟨a, ha, he⟩ := ih p p (List.mem_cons_self _ _)
            exact ⟨a, ha, by rw [heq, h]; exact he⟩
          · exact ih p q (List.mem_cons_of_mem _ hq)
      · simp only [dedupAdjAux, if_neg h]
        rcases hq with heq | hq
        · exact ⟨p, List.mem_cons_self _ _, by rw [heq]⟩
        · obtain ⟨a, ha, he⟩ := ih q0 q (by simpa [List.mem_cons] using hq)
          exact ⟨a, List.mem_cons_of_mem _ ha, he⟩

theorem dedupAdjAux_pairwise_fst_lt (l : List (ℚ × ℚ)) (p : ℚ × ℚ)
    (h : List.Pairwise lexLe (p :: l)) :
    List.Pairwise (fun a b : ℚ × ℚ => a.1 < b.1) (dedupAdjAux p l) := by
  induction l generalizing p with
  | nil => simp [dedupAdjAux]
  | cons q rest ih =>
      rcases List.pairwise_cons.1 h with ⟨hp, hrest⟩
      rcases List.pairwise_cons.1 hrest with ⟨hq, hrest2⟩
      by_cases he : q.1 = p.1
      · simp only [dedupAdjAux, if_pos he]
        exact ih p (List.pairwise_cons.2
          ⟨fun b hb => hp b (List.mem_cons_of_mem _ hb), hrest2⟩)
      · simp only [dedupAdjAux, if_neg he]
        have hpq : p.1 < q.1 := by
          rcases hp q (List.mem_cons_self _ _) with h1 | ⟨h1, _⟩
          · exact h1
          · exact absurd h1.symm he
        refine List.pairwise_cons.2 ⟨?_, ih q hrest⟩
        intro b hb
        have hb2 := dedupAdjAux_subset rest q b hb
        simp only [List.mem_cons] at hb2
        rcases hb2 with rfl | hb2
        · exact hpq
        · rcases hq b hb2 with h1 | ⟨h1, _⟩
          · exact hpq.trans h1
          · exact h1 ▸ hpq

theorem dedupAdjAux_min_snd (l : List (ℚ × ℚ)) (p : ℚ × ℚ)
    (h : List.Pairwise lexLe (p :: l)) :
    ∀ a ∈ dedupAdjAux p l, ∀ q ∈ p :: l, q.1 = a.1 → a.2 ≤ q.2 := by
  induction l generalizing p with
  | nil =>
      intro a ha q hq _
      simp only [dedupAdjAux, List.mem_singleton] at ha
      simp only [List.mem_cons, List.not_mem_nil, or_false] at hq
      rw [ha, hq]
  | cons q0 rest ih =>
      rcases List.pairwise_cons.1 h with ⟨hp, hrest⟩
      rcases List.pairwise_cons.1 hrest with ⟨hq0, hrest2⟩
      intro a ha q hq hfst
      simp only [List.mem_cons] at hq
      by_cases he : q0.1 = p.1
      · simp only [dedupAdjAux, if_pos he] at ha
        have hsort : List.Pairwise lexLe (p :: rest) :=
          List.pairwise_cons.2 ⟨fun b hb => hp b (List.mem_cons_of_mem _ hb), hrest2⟩
        rcases hq with heq | hq
        · rw [heq] at hfst ⊢
          exact ih p hsort a ha p (List.mem_cons_self _ _) hfst
        · rcases hq with heq | hq
          · rw [heq] at hfst ⊢
            have h1 : a.2 ≤ p.2 :=
              ih p hsort a ha p (List.mem_cons_self _ _) (by rw [← he]; exact hfst)
            have h2 : p.2 ≤ q0.2 := by
              rcases hp q0 (List.mem_cons_self _ _) with hlt | ⟨_, hle⟩
              · exact absurd (he ▸ hlt) (lt_irrefl _)
              · exact hle
            exact h1.trans h2
          · exact ih p hsort a ha q (List.mem_cons_of_mem _ hq) hfst
      · simp only [dedupAdjAux, if_neg he, List.mem_cons] at ha
        have hpq0 : p.1 < q0.1 := by
          rcases hp q0 (List.mem_cons_self _ _) with h1 | ⟨h1, _⟩
          · exact h1
          · exact absurd h1.symm he
        rcases ha with haeq | ha
        · rcases hq with heq | hq
          · rw [haeq, heq]
          · rcases hq with heq | hq
            · rw [heq] at hfst
              rw [haeq] at hfst
              exact absurd hfst he
            · exfalso
              rw [haeq] at hfst
              have hle : q0.1 ≤ q.1 := by
                rcases hq0 q hq with h1 | ⟨h1, _⟩
                · exact le_of_lt h1
                · exact le_of_eq h1
              exact absurd (hfst ▸ (hpq0.trans_le hle)) (lt_irrefl _)
        · rcases hq with heq | hq
          · exfalso
            rw [heq] at hfst
            have haq := dedupAdjAux_subset rest q0 a ha
            simp only [List.mem_cons] at haq
            have hle : q0.1 ≤ a.1 := by
              rcases haq with haq | haq
              · rw [haq]
              · rcases hq0 a haq with h1 | ⟨h1, _⟩
                · exact le_of_lt h1
                · exact le_of_eq h1
            exact absurd (hfst ▸ (hpq0.trans_le hle)) (lt_irrefl _)
          · exact ih q0 hrest a ha q (by simpa [List.mem_cons] using hq) hfst

/-- Each pair twice in a row: the shape of `zip x y ++ zip x y` once it has
been sorted, when x is strictly increasing. -/
def doubled : List (ℚ × ℚ) → List (ℚ × ℚ)
  | [] => []
  | p :: t => p :: p :: doubled t

theorem mem_doubled {a : ℚ × ℚ} : ∀ {l : List (ℚ × ℚ)}, a ∈ doubled l ↔ a ∈ l := by
  intro l
  induction l with
  | nil => exact Iff.rfl
  | cons p t ih =>
      simp only [doubled, List.mem_cons, ih]
      tauto

theorem doubled_perm (l : List (ℚ × ℚ)) : (doubled l).Perm (l ++ l) := by
  induction l with
  | nil => simp [doubled]
  | cons p t ih =>
      simp only [doubled, List.cons_append]
      refine List.Perm.cons p ?_
      exact ((ih.cons p)).trans List.perm_middle.symm

theorem sorted_doubled (l : List (ℚ × ℚ))
    (h : List.Pairwise (fun a b : ℚ × ℚ => a.1 < b.1) l) :
    List.Sorted lexLe (doubled l) := by
  induction l with
  | nil => simp [doubled, List.Sorted]
  | cons p t ih =>
      rcases List.pairwise_cons.1 h with ⟨hp, ht⟩
      have hmem : ∀ b ∈ doubled t, lexLe p b := by
        intro b hb
        exact Or.inl (hp b (mem_doubled.1 hb))
      refine List.pairwise_cons.2 ⟨?_, List.pairwise_cons.2 ⟨hmem, ih ht⟩⟩
      intro b hb
      simp only [List.mem_cons] at hb
      rcases hb with rfl | hb
      · exact Or.inr ⟨rfl, le_refl _⟩
      · exact hmem b hb

theorem dedupAdjAux_doubled (t : List (ℚ × ℚ)) (p : ℚ × ℚ)
    (h : List.Chain' (fun a b : ℚ × ℚ => a.1 < b.1) (p :: t)) :
    dedupAdjAux p (doubled t) = p :: t := by
  induction t generalizing p with
  | nil => simp [doubled, dedupAdjAux]
  | cons q t2 ih =>
      have hpq : p.1 < q.1 := (List.chain'_cons.1 h).1
      have hrest : List.Chain' (fun a b : ℚ × ℚ => a.1 < b.1) (q :: t2) :=
        (List.chain'_cons.1 h).2
      have hne : ¬ q.1 = p.1 := ne_of_gt hpq
      show dedupAdjAux p (q :: q :: doubled t2) = p :: q :: t2
      rw [show dedupAdjAux p (q :: q :: doubled t2)
            = p :: dedupAdjAux q (q :: doubled t2) by
          simp [dedupAdjAux, hne]]
      rw [show dedupAdjAux q (q :: doubled t2) = dedupAdjAux q (doubled t2) by
          simp [dedupAdjAux]]
      rw [ih q hrest]

instance : IsTrans (ℚ × ℚ) (fun a b => a.1 < b.1) :=
  ⟨fun _ _ _ h1 h2 => h1.trans h2⟩

theorem dedupAdj_subset (l : List (ℚ × ℚ)) : ∀ a ∈ dedupAdj l, a ∈ l := by
  cases l with
  | nil => intro a ha; cases ha
  | cons p t => exact dedupAdjAux_subset t p

theorem dedupAdj_pairwise_fst_lt (l : List (ℚ × ℚ)) (h : List.Sorted lexLe l) :
    List.Pairwise (fun a b : ℚ × ℚ => a.1 < b.1) (dedupAdj l) := by
  cases l with
  | nil => exact List.Pairwise.nil
  | cons p t => exact dedupAdjAux_pairwise_fst_lt t p h

theorem dedupAdj_min_snd (l : List (ℚ × ℚ)) (h : List.Sorted lexLe l) :
    ∀ a ∈ dedupAdj l, ∀ q ∈ l, q.1 = a.1 → a.2 ≤ q.2 := by
  cases l with
  | nil => intro a ha; cases ha
  | cons p t => exact dedupAdjAux_min_snd t p h

theorem dedupAdj_fst_cover (l : List (ℚ × ℚ)) :
    ∀ q ∈ l, ∃ a ∈ dedupAdj l, a.1 = q.1 := by
  cases l with
  | nil => intro q hq; cases hq
  | cons p t => exact dedupAdjAux_fst_cover t p

/-- Putting the very same (x, y) data into an existing identical dataset
merges to exactly that data again, provided x is strictly increasing. -/
theorem savedataMerge_self (x y : List ℚ)
    (hchain : List.Chain' (· < ·) x) (hlen : x.length = y.length) :
    savedataMerge x y x y = (x, y) := by
  have hzip : (x ++ x).zip (y ++ y) = x.zip y ++ x.zip y := List.zip_append hlen
  have hfst : (x.zip y).map Prod.fst = x := List.map_fst_zip x y (le_of_eq hlen)
  have hsnd : (x.zip y).map Prod.snd = y := List.map_snd_zip x y (ge_of_eq hlen)
  have hpairx : List.Pairwise (· < ·) x := List.chain'_iff_pairwise.mp hchain
  have hpairP : List.Pairwise (fun a b : ℚ × ℚ => a.1 < b.1) (x.zip y) := by
    rw [← hfst] at hpairx
    exact List.pairwise_map.mp hpairx
  have hsorted := List.sorted_insertionSort lexLe (x.zip y ++ x.zip y)
  have hperm : (List.insertionSort lexLe (x.zip y ++ x.zip y)).Perm (doubled (x.zip y)) :=
    (List.perm_insertionSort lexLe _).trans (doubled_perm _).symm
  have hsort_eq : List.insertionSort lexLe (x.zip y ++ x.zip y) = doubled (x.zip y) :=
    List.eq_of_perm_of_sorted hperm hsorted (sorted_doubled _ hpairP)
  have hdd : dedupAdj (doubled (x.zip y)) = x.zip y := by
    cases hP : x.zip y with
    | nil => simp [hP, doubled, dedupAdj]
    | cons p t =>
        have hchainP : List.Chain' (fun a b : ℚ × ℚ => a.1 < b.1) (p :: t) := by
          rw [← hP]
          exact List.chain'_iff_pairwise.mpr hpairP
        show dedupAdj (p :: p :: doubled t) = p :: t
        show dedupAdjAux p (p :: doubled t) = p :: t
        rw [show dedupAdjAux p (p :: doubled t) = dedupAdjAux p (doubled t) by
            simp [dedupAdjAux]]
        exact dedupAdjAux_doubled t p hchainP
  unfold savedataMerge
  rw [hzip, hsort_eq]
  show ((dedupAdj (doubled (x.zip y))).map Prod.fst,
        (dedupAdj (doubled (x.zip y))).map Prod.snd) = (x, y)
  rw [hdd, hfst, hsnd]

theorem lookupEntry_updateEntry (s : Store) (g k : String)
    (v w : List ℚ × List ℚ) (h : lookupEntry s g k = some w) :
    lookupEntry (updateEntry s g k v) g k = some v := by
  induction s with
  | nil => cases h
  | cons e rest ih =>
      by_cases hpe : (e.1.1 == g && e.1.2 == k) = true
      · simp only [updateEntry, List.map_cons, if_pos hpe, lookupEntry]
        rw [@List.find?_cons_of_pos _ (fun e => e.1.1 == g && e.1.2 == k) (e.1, v) _ hpe]
        rfl
      · simp only [lookupEntry] at h
        rw [@List.find?_cons_of_neg _ (fun e => e.1.1 == g && e.1.2 == k) e rest hpe] at h
        simp only [updateEntry, List.map_cons, if_neg hpe, lookupEntry]
        rw [@List.find?_cons_of_neg _ (fun e => e.1.1 == g && e.1.2 == k) e _ hpe]
        exact ih h

theorem updateEntry_of_not_found (s : Store) (g k : String) (v : List ℚ × List ℚ)
    (h : lookupEntry s g k = none) : updateEntry s g k v = s := by
  induction s with
  | nil => rfl
  | cons e rest ih =>
      by_cases hpe : (e.1.1 == g && e.1.2 == k) = true
      · exfalso
        simp only [lookupEntry] at h
        rw [@List.find?_cons_of_pos _ (fun e => e.1.1 == g && e.1.2 == k) e rest hpe] at h
        cases h
      · simp only [lookupEntry] at h
        rw [@List.find?_cons_of_neg _ (fun e => e.1.1 == g && e.1.2 == k) e rest hpe] at h
        simp only [updateEntry, List.map_cons, if_neg hpe]
        exact congrArg (List.cons e) (ih h)

/-! ## Claim C1: the existing-entry merge of `put` -/

/-- C1 (counterexample). The claim says the merge keeps the earlier
occurrence among duplicates sharing an x value. On old data (x, y) =
([1], [5]) and new data ([1], [3]), `savedata` keeps the pair with the
smaller y — here the NEW value 3 — because Python `sorted(zip(x, y))`
orders equal-x pairs by y before the keep-first deduplication runs. The
stable sort-by-x-only merge demanded by the claim would keep 5. -/
theorem savedata_merge_cex :
    savedataMerge [1] [5] [1] [3] = ([1], [3]) ∧
    mergeByXKeepEarlier [1] [5] [1] [3] = ([1], [5]) ∧
    putEntry [(("halo", "k"), ([1], [5]))] "halo" "k" [1] [3]
      = [(("halo", "k"), ([1], [3]))] ∧
    savedataMerge [1] [5] [1] [3] ≠ mergeByXKeepEarlier [1] [5] [1] [3] := by
  refine ⟨by decide, by decide, ?_, by decide⟩
  decide

/-- C1 (amended). For every existing cache entry (group, key) and every put
of new (x, y) arrays to that same (group, key), the store merges by
concatenating the old and new arrays, sorting the pairs lexicographically
by x and then by y ascending, and dropping later duplicates that share an
x value while keeping the first pair of each run — which is the pair with
the smallest y among that x, not necessarily the earlier occurrence — then
rewriting the entry: the rewritten entry is the merge result, its x array
is strictly increasing, every merged pair comes from the input pairs,
every kept pair has minimal y among input pairs sharing its x, and every
input x value survives. -/
theorem savedata_merge_amended (s : Store) (g k : String)
    (oldX oldY newX newY : List ℚ) (p q : ℚ × ℚ)
    (hold : oldX.length = oldY.length)
    (hex : lookupEntry s (normalizeGroup g) k = some (oldX, oldY))
    (hp : p ∈ mergedPairs oldX oldY newX newY)
    (hq : q ∈ oldX.zip oldY ++ newX.zip newY) :
    lookupEntry (putEntry s g k newX newY) (normalizeGroup g) k
        = some (savedataMerge oldX oldY newX newY) ∧
    List.Pairwise (· < ·) (savedataMerge oldX oldY newX newY).1 ∧
    p ∈ oldX.zip oldY ++ newX.zip newY ∧
    (q.1 = p.1 → p.2 ≤ q.2) ∧
    q.1 ∈ (savedataMerge oldX oldY newX newY).1 := by
  have hsorted := List.sorted_insertionSort lexLe
    ((oldX ++ newX).zip (oldY ++ newY))
  have hPsplit : (oldX ++ newX).zip (oldY ++ newY)
      = oldX.zip oldY ++ newX.zip newY := List.zip_append hold
  have hqP : q ∈ ((oldX ++ newX).zip (oldY ++ newY)).insertionSort lexLe := by
    rw [List.mem_insertionSort, hPsplit]
    exact hq
  have hpL : p ∈ ((oldX ++ newX).zip (oldY ++ newY)).insertionSort lexLe :=
    dedupAdj_subset _ p hp
  refine ⟨?_, ?_, ?_, ?_, ?_⟩
  · simp only [putEntry, hex]
    exact lookupEntry_updateEntry s (normalizeGroup g) k _ (oldX, oldY) hex
  · exact List.pairwise_map.mpr (dedupAdj_pairwise_fst_lt _ hsorted)
  · rw [← hPsplit, ← List.mem_insertionSort lexLe]
    exact hpL
  · exact fun hqp => dedupAdj_min_snd _ hsorted p hp q hqP hqp
  · obtain ⟨a, ha, he⟩ := dedupAdj_fst_cover _ q hqP
    exact List.mem_map.mpr ⟨a, ha, he⟩

/-- C1 witness: the amended merge theorem instantiated on a concrete store,
entry and put. -/
theorem savedata_merge_amended_witness :
    lookupEntry (putEntry [(("halo", "k"), ([1], [5]))] "halo" "k" [1] [3])
        (normalizeGroup "halo") "k" = some (savedataMerge [1] [5] [1] [3]) ∧
    List.Pairwise (· < ·) (savedataMerge [1] [5] [1] [3]).1 ∧
    ((1 : ℚ), (3 : ℚ)) ∈ ([1].zip [5] ++ [1].zip [3] : List (ℚ × ℚ)) ∧
    (((1 : ℚ), (5 : ℚ)).1 = ((1 : ℚ), (3 : ℚ)).1 →
      ((1 : ℚ), (3 : ℚ)).2 ≤ ((1 : ℚ), (5 : ℚ)).2) ∧
    ((1 : ℚ), (5 : ℚ)).1 ∈ (savedataMerge [1] [5] [1] [3]).1 :=
  savedata_merge_amended [(("halo", "k"), ([1], [5]))] "halo" "k"
    [1] [5] [1] [3] (1, 3) (1, 5)
    (by decide) (by decide) (by decide) (by decide)

/-! ## Claim C9: idempotence of a repeated identical put -/

/-- C9 (counterexample). Putting ([2, 1], [5, 6]) twice — x values
distinct, as the claim requires — does not leave the stored entry equal to
the result of a single put: the first put stores the arrays verbatim
(unsorted), while the second rewrites them sorted with duplicates
collapsed. -/
theorem put_idem_cex :
    putEntry [] "test" "k" [2, 1] [5, 6] = [(("test", "k"), ([2, 1], [5, 6]))] ∧
    putEntry (putEntry [] "test" "k" [2, 1] [5, 6]) "test" "k" [2, 1] [5, 6]
      = [(("test", "k"), ([1, 2], [6, 5]))] ∧
    putEntry (putEntry [] "test" "k" [2, 1] [5, 6]) "test" "k" [2, 1] [5, 6]
      ≠ putEntry [] "test" "k" [2, 1] [5, 6] :=
  ⟨by decide, by decide, by decide⟩

/-- C9 (amended). For every group g, key k, and arrays (x, y) whose x
values are strictly increasing (not merely distinct), performing
put(g, k, x, y) twice with identical arguments on a store that does not
yet hold the entry leaves the store equal to the result of a single put:
the duplicates introduced by the second write are all collapsed. -/
theorem putEntry_idempotent (s : Store) (g k : String) (x y : List ℚ)
    (hchain : List.Chain' (· < ·) x) (hlen : x.length = y.length)
    (habs : lookupEntry s (normalizeGroup g) k = none) :
    putEntry (putEntry s g k x y) g k x y = putEntry s g k x y := by
  have h1 : putEntry s g k x y = s ++ [((normalizeGroup g, k), (x, y))] := by
    simp only [putEntry, habs]
  have hfind : s.find? (fun e => e.1.1 == normalizeGroup g && e.1.2 == k) = none := by
    have h2 := habs
    unfold lookupEntry at h2
    exact Option.map_eq_none'.mp h2
  have hl2 : lookupEntry (s ++ [((normalizeGroup g, k), (x, y))]) (normalizeGroup g) k
      = some (x, y) := by
    unfold lookupEntry
    rw [List.find?_append, hfind]
    simp [List.find?]
  rw [h1]
  simp only [putEntry, hl2]
  rw [savedataMerge_self x y hchain hlen]
  unfold updateEntry
  rw [List.map_append]
  have hs := updateEntry_of_not_found s (normalizeGroup g) k (x, y) habs
  unfold updateEntry at hs
  rw [hs]
  congr 1
  simp

/-- C9 witness: double put equals single put on a concrete strictly
increasing input. -/
theorem putEntry_idempotent_witness :
    putEntry (putEntry [] "g0" "k0" [1, 2] [3, 4]) "g0" "k0" [1, 2] [3, 4]
      = putEntry [] "g0" "k0" [1, 2] [3, 4] :=
  putEntry_idempotent [] "g0" "k0" [1, 2] [3, 4]
    (List.chain'_pair.mpr (by norm_num)) (by decide) (by decide)

/-! ## The `blackhole` component (components.py lines 384-445)

`blackhole(r, M, load, save)` computes `a = sqrt(G*M/r)` elementwise and
then runs its cache logic: `save` forces `load` off; under `load` it calls
`loaddata` and subscripts the result (`[1]`, `[0]`), catching only
`KeyError` and `FileNotFoundError` (which switch it to the save path); it
returns `a` on every non-raising path.  With h5py absent `loaddata`
returns the int `1`, so the subscript `loaddata(...)[1]` raises an
uncaught `TypeError`. -/

/-- Gravitational constant as defined at components.py line 82. -/
noncomputable def G : ℝ := 4.30091e-6

/-- Outcome of `loaddata(group, dataset, ...)`. -/
inductive LoadResult where
  | arr (x y : List ℝ) : LoadResult
  | sentinel : LoadResult
  | notFound : LoadResult

/-- `loaddata`: with h5py present, return the stored `[x, y]` dataset or
fail with `KeyError`/`FileNotFoundError` when absent; with h5py missing,
print an error and return the int `1`. -/
def loaddata (h5Available : Bool) (entry : Option (List ℝ × List ℝ)) : LoadResult :=
  if h5Available then
    match entry with
    | some (x, y) => .arr x y
    | none => .notFound
  else .sentinel

/-- The velocity array `a = np.sqrt(G*M/r)` (components.py line 426). -/
noncomputable def blackholeVelocity (r : List ℝ) (M : ℝ) : List ℝ :=
  r.map (fun ri => Real.sqrt (G * M / ri))

/-- The load/save control flow of `blackhole` (components.py lines
429-445): returns whether `savedata` ends up being called, or the uncaught
exception escaping the function.  Subscripting the int sentinel returned
by `loaddata` when h5py is absent raises `TypeError`, which is not among
the caught exception types. -/
def blackholeCacheFlow (h5Available load save : Bool)
    (entry : Option (List ℝ × List ℝ)) : Except String Bool :=
  let load2 := if save then false else load
  if load2 then
    match loaddata h5Available entry with
    | .arr _ _ => .ok save
    | .sentinel => .error "TypeError"
    | .notFound => .ok true
  else .ok save

/-- `blackhole`: compute the velocity array, run the cache flow, and
return the computed array (never the loaded one) together with the flag
recording whether the result was persisted. -/
noncomputable def blackhole (h5Available : Bool) (r : List ℝ) (M : ℝ)
    (load save : Bool) (entry : Option (List ℝ × List ℝ)) :
    Except String (List ℝ × Bool) :=
  match blackholeCacheFlow h5Available load save entry with
  | .ok didSave => .ok (blackholeVelocity r M, didSave)
  | .error e => .error e

/-- `savedata` with the h5py flag: with h5py present perform the put; with
h5py absent print an error and return the sentinel int `1`, leaving the
store untouched (components.py lines 241-243). -/
def savedataH5 (h5Available : Bool) (s : Store) (g k : String)
    (x y : List ℚ) : Store × Option ℕ :=
  if h5Available then (putEntry s g k x y, none) else (s, some 1)

/-- `checkfile` with the h5py flag: with h5py absent return the sentinel
int `1` (components.py lines 376-378). -/
def checkfileH5 (h5Available : Bool) : Option ℕ :=
  if h5Available then none else some 1

/-- Element `i` of the mapped velocity array is the pointwise formula. -/
theorem blackholeVelocity_getD (r : List ℝ) (M : ℝ) (i : ℕ) (hi : i < r.length) :
    (blackholeVelocity r M).getD i 0 = Real.sqrt (G * M / r.getD i 0) := by
  unfold blackholeVelocity
  rw [List.getD_eq_getElem?_getD, List.getElem?_map, List.getElem?_eq_getElem hi,
    List.getD_eq_getElem?_getD, List.getElem?_eq_getElem hi]
  rfl

/-! ## Claim C4: the black-hole velocity formula -/

/-- C4. For every radius array with r[i] > 0 and every M > 0, the default
call `blackhole(r, M)` (load and save both off) returns, without failing
and without persisting, exactly the array `sqrt(G*M/r)` computed
elementwise from the inputs, with G = 4.30091e-6. -/
theorem blackhole_formula (h5 : Bool) (r : List ℝ) (M : ℝ)
    (entry : Option (List ℝ × List ℝ)) (i : ℕ)
    (hi : i < r.length) (hr : 0 < r.getD i 0) (hM : 0 < M) :
    blackhole h5 r M false false entry = .ok (blackholeVelocity r M, false) ∧
    (blackholeVelocity r M).getD i 0
      = Real.sqrt (4.30091e-6 * M / r.getD i 0) ∧
    0 < (blackholeVelocity r M).getD i 0 := by
  have h1 := blackholeVelocity_getD r M i hi
  refine ⟨rfl, ?_, ?_⟩
  · rw [show (4.30091e-6 : ℝ) = G from rfl]
    exact h1
  · rw [h1]
    apply Real.sqrt_pos.mpr
    apply div_pos _ hr
    apply mul_pos _ hM
    rw [show G = (4.30091e-6 : ℝ) from rfl]
    norm_num

/-- C4 witness: the formula theorem instantiated at r = [1], M = 1. -/
theorem blackhole_formula_witness :
    blackhole true [1] 1 false false none = .ok (blackholeVelocity [1] 1, false) ∧
    (blackholeVelocity [1] 1).getD 0 0
      = Real.sqrt (4.30091e-6 * 1 / ([1] : List ℝ).getD 0 0) ∧
    0 < (blackholeVelocity [1] 1).getD 0 0 :=
  blackhole_formula true [1] 1 none 0 (by norm_num) (by norm_num) (by norm_num)

/-! ## Claim C10: the returned value never depends on flags or cache -/

/-- C10. The value returned by `blackhole` is independent of the load and
save flags, of h5py availability, and of the cache contents: any two
invocations that return at all return the same array, namely
`sqrt(G*M/r)` computed from the inputs; data loaded from the cache is
never used in the returned value. -/
theorem blackhole_cache_independent (h5a h5b la sa lb sb : Bool)
    (ea eb : Option (List ℝ × List ℝ)) (r : List ℝ) (M : ℝ)
    (pa pb : List ℝ × Bool)
    (ha : blackhole h5a r M la sa ea = .ok pa)
    (hb : blackhole h5b r M lb sb eb = .ok pb) :
    pa.1 = pb.1 ∧ pa.1 = blackholeVelocity r M := by
  have key : ∀ (h5 l s : Bool) (e : Option (List ℝ × List ℝ)) (p : List ℝ × Bool),
      blackhole h5 r M l s e = .ok p → p.1 = blackholeVelocity r M := by
    intro h5 l s e p h
    unfold blackhole at h
    cases hc : blackholeCacheFlow h5 l s e with
    | ok b => rw [hc] at h; cases h; rfl
    | error er => rw [hc] at h; cases h
  have hA := key h5a la sa ea pa ha
  have hB := key h5b lb sb eb pb hb
  exact ⟨hA.trans hB.symm, hA⟩

/-- C10 witness: a loading call with a populated cache and a saving call
with an empty cache return the same array. -/
theorem blackhole_cache_independent_witness :
    ((blackholeVelocity [1] 1, false) : List ℝ × Bool).1
      = ((blackholeVelocity [1] 1, true) : List ℝ × Bool).1 ∧
    ((blackholeVelocity [1] 1, false) : List ℝ × Bool).1
      = blackholeVelocity [1] 1 :=
  blackhole_cache_independent true false true false false true
    (some ([2], [3])) none [1] 1
    (blackholeVelocity [1] 1, false) (blackholeVelocity [1] 1, true) rfl rfl

/-! ## Claim C6: behavior when the storage capability (h5py) is absent -/

/-- C6. With h5py absent, `savedata`, `loaddata` and `checkfile` do
degrade to no-ops returning the sentinel int 1 — but `blackhole` with
load enabled does NOT treat the sentinel like a missing cache entry: it
subscripts the int returned by `loaddata`, raising an uncaught
`TypeError` to the caller, whereas the same call with h5py present
recomputes and attempts to persist.  This contradicts the claim (and
blackhole's own docstring, which promises a save fallback whenever no
data can be loaded). -/
theorem h5py_absent_blackhole_raises :
    savedataH5 false [] "test" "k" [1] [2] = ([], some 1) ∧
    loaddata false none = .sentinel ∧
    loaddata false (some ([2], [3])) = .sentinel ∧
    checkfileH5 false = some 1 ∧
    blackhole false [1] 1 true false none = .error "TypeError" ∧
    blackhole true [1] 1 true false none = .ok (blackholeVelocity [1] 1, true) :=
  ⟨rfl, rfl, rfl, rfl, rfl, rfl⟩

/-! ## The quadrature combiner (`totalvelocity_halo`, components.py 1004-1016)

`_compute_component_parallel` evaluates one component and squares it; on
any exception it returns `np.zeros_like(r)` instead.  `totalvelocity_halo`
evaluates blackhole, bulge, disk, halo and gas this way, sums the squared
arrays elementwise and takes the elementwise square root.  A component
evaluation is modelled as its outcome: the velocity array it would return,
or the exception message it would raise. -/

/-- `_compute_component_parallel` (components.py lines 864-885): square
the component output elementwise, or substitute a zero array of the shape
of `r` when the component raises. -/
def compute_component_parallel (r : List ℚ)
    (result : Except String (List ℚ)) : List ℚ :=
  match result with
  | .ok v => v.map (fun x => x ^ 2)
  | .error _ => r.map (fun _ => 0)

/-- numpy `sum(components_squared)`: elementwise sum of the equally-shaped
arrays in the list. -/
def sumArrays : List (List ℚ) → List ℚ
  | [] => []
  | a :: rest => rest.foldl (fun acc b => acc.zipWith (· + ·) b) a

/-- `totalvelocity_halo`: quadrature sum of the five component outcomes. -/
noncomputable def totalvelocity_halo (r : List ℚ)
    (blackholeRes bulgeRes diskRes haloRes gasRes : Except String (List ℚ)) :
    List ℝ :=
  (sumArrays [compute_component_parallel r blackholeRes,
              compute_component_parallel r bulgeRes,
              compute_component_parallel r diskRes,
              compute_component_parallel r haloRes,
              compute_component_parallel r gasRes]).map
    (fun q : ℚ => Real.sqrt (q : ℝ))

/-- The squared contribution of one component outcome at index `i`: the
square of its i-th output on success, 0 when it raised. -/
def componentContribSq (result : Except String (List ℚ)) (i : ℕ) : ℚ :=
  match result with
  | .ok v => (v.getD i 0) ^ 2
  | .error _ => 0

theorem zipWith_add_getD (a b : List ℚ) (i : ℕ)
    (ha : i < a.length) (hb : i < b.length) :
    (a.zipWith (· + ·) b).getD i 0 = a.getD i 0 + b.getD i 0 := by
  rw [List.getD_eq_getElem?_getD, List.getElem?_zipWith,
    List.getElem?_eq_getElem ha, List.getElem?_eq_getElem hb,
    List.getD_eq_getElem?_getD, List.getElem?_eq_getElem ha,
    List.getD_eq_getElem?_getD, List.getElem?_eq_getElem hb]
  rfl

theorem compute_component_parallel_length (r : List ℚ)
    (result : Except String (List ℚ))
    (hlen : ∀ v, result = .ok v → v.length = r.length) :
    (compute_component_parallel r result).length = r.length := by
  cases result with
  | ok v => simpa [compute_component_parallel] using hlen v rfl
  | error e => simp [compute_component_parallel]

theorem compute_component_parallel_getD (r : List ℚ)
    (result : Except String (List ℚ)) (i : ℕ) (hi : i < r.length)
    (hlen : ∀ v, result = .ok v → v.length = r.length) :
    (compute_component_parallel r result).getD i 0 = componentContribSq result i := by
  cases result with
  | ok v =>
      have hv : i < v.length := by rw [hlen v rfl]; exact hi
      simp only [compute_component_parallel, componentContribSq]
      rw [List.getD_eq_getElem?_getD, List.getElem?_map, List.getElem?_eq_getElem hv,
        List.getD_eq_getElem?_getD, List.getElem?_eq_getElem hv]
      rfl
  | error e =>
      simp only [compute_component_parallel, componentContribSq]
      rw [List.getD_eq_getElem?_getD, List.getElem?_map, List.getElem?_eq_getElem hi]
      rfl

/-! ## Claim C2: quadrature total with per-component failure recovery -/

/-- C2. For every radius array and component outcomes whose successful
outputs match the radius array's shape, the total-velocity combiner
returns at every index the square root of the sum of the squares of the
component outputs, where a component that raised contributes zero instead
of aborting the computation. -/
theorem totalvelocity_halo_quadrature (r : List ℚ)
    (bh bul dk hl gs : Except String (List ℚ))
    (hbh : ∀ v, bh = .ok v → v.length = r.length)
    (hbul : ∀ v, bul = .ok v → v.length = r.length)
    (hdk : ∀ v, dk = .ok v → v.length = r.length)
    (hhl : ∀ v, hl = .ok v → v.length = r.length)
    (hgs : ∀ v, gs = .ok v → v.length = r.length)
    (i : ℕ) (hi : i < r.length) :
    (totalvelocity_halo r bh bul dk hl gs).getD i 0
      = Real.sqrt (((componentContribSq bh i + componentContribSq bul i
          + componentContribSq dk i + componentContribSq hl i
          + componentContribSq gs i : ℚ) : ℝ)) := by
  have lbh := compute_component_parallel_length r bh hbh
  have lbul := compute_component_parallel_length r bul hbul
  have ldk := compute_component_parallel_length r dk hdk
  have lhl := compute_component_parallel_length r hl hhl
  have lgs := compute_component_parallel_length r gs hgs
  have hsum : sumArrays [compute_component_parallel r bh,
      compute_component_parallel r bul, compute_component_parallel r dk,
      compute_component_parallel r hl, compute_component_parallel r gs]
      = ((((compute_component_parallel r bh).zipWith (· + ·)
            (compute_component_parallel r bul)).zipWith (· + ·)
            (compute_component_parallel r dk)).zipWith (· + ·)
            (compute_component_parallel r hl)).zipWith (· + ·)
            (compute_component_parallel r gs) := rfl
  have l12 : ((compute_component_parallel r bh).zipWith (· + ·)
      (compute_component_parallel r bul)).length = r.length := by
    rw [List.length_zipWith, lbh, lbul, min_self]
  have l123 : (((compute_component_parallel r bh).zipWith (· + ·)
      (compute_component_parallel r bul)).zipWith (· + ·)
      (compute_component_parallel r dk)).length = r.length := by
    rw [List.length_zipWith, l12, ldk, min_self]
  have l1234 : ((((compute_component_parallel r bh).zipWith (· + ·)
      (compute_component_parallel r bul)).zipWith (· + ·)
      (compute_component_parallel r dk)).zipWith (· + ·)
      (compute_component_parallel r hl)).length = r.length := by
    rw [List.length_zipWith, l123, lhl, min_self]
  have l12345 : (((((compute_component_parallel r bh).zipWith (· + ·)
      (compute_component_parallel r bul)).zipWith (· + ·)
      (compute_component_parallel r dk)).zipWith (· + ·)
      (compute_component_parallel r hl)).zipWith (· + ·)
      (compute_component_parallel r gs)).length = r.length := by
    rw [List.length_zipWith, l1234, lgs, min_self]
  have hgetD : (sumArrays [compute_component_parallel r bh,
      compute_component_parallel r bul, compute_component_parallel r dk,
      compute_component_parallel r hl, compute_component_parallel r gs]).getD i 0
      = componentContribSq bh i + componentContribSq bul i
        + componentContribSq dk i + componentContribSq hl i
        + componentContribSq gs i := by
    rw [hsum,
      zipWith_add_getD _ _ i (by rw [l1234]; exact hi) (by rw [lgs]; exact hi),
      zipWith_add_getD _ _ i (by rw [l123]; exact hi) (by rw [lhl]; exact hi),
      zipWith_add_getD _ _ i (by rw [l12]; exact hi) (by rw [ldk]; exact hi),
      zipWith_add_getD _ _ i (by rw [lbh]; exact hi) (by rw [lbul]; exact hi),
      compute_component_parallel_getD r bh i hi hbh,
      compute_component_parallel_getD r bul i hi hbul,
      compute_component_parallel_getD r dk i hi hdk,
      compute_component_parallel_getD r hl i hi hhl,
      compute_component_parallel_getD r gs i hi hgs]
  have hlen5 : i < (sumArrays [compute_component_parallel r bh,
      compute_component_parallel r bul, compute_component_parallel r dk,
      compute_component_parallel r hl, compute_component_parallel r gs]).length := by
    rw [hsum, l12345]; exact hi
  have hsome : (sumArrays [compute_component_parallel r bh,
      compute_component_parallel r bul, compute_component_parallel r dk,
      compute_component_parallel r hl, compute_component_parallel r gs])[i]?
      = some (componentContribSq bh i + componentContribSq bul i
          + componentContribSq dk i + componentContribSq hl i
          + componentContribSq gs i) := by
    rw [List.getElem?_eq_getElem hlen5]
    congr 1
    have h1 := hgetD
    rw [List.getD_eq_getElem?_getD, List.getElem?_eq_getElem hlen5,
      Option.getD_some] at h1
    exact h1
  unfold totalvelocity_halo
  rw [List.getD_eq_getElem?_getD, List.getElem?_map, hsome]
  rfl

/-- C2 witness: with outputs [3] (blackhole), a raising bulge, [4]
(disk) and [0], [0] (halo, gas) at a single radius, the combiner returns
sqrt(9 + 0 + 16 + 0 + 0). -/
theorem totalvelocity_halo_quadrature_witness :
    (totalvelocity_halo [1] (.ok [3]) (.error "integration failed")
        (.ok [4]) (.ok [0]) (.ok [0])).getD 0 0
      = Real.sqrt (((componentContribSq (.ok [3]) 0
          + componentContribSq (.error "integration failed") 0
          + componentContribSq (.ok [4]) 0 + componentContribSq (.ok [0]) 0
          + componentContribSq (.ok [0]) 0 : ℚ) : ℝ)) :=
  totalvelocity_halo_quadrature [1] (.ok [3]) (.error "integration failed")
    (.ok [4]) (.ok [0]) (.ok [0])
    (fun v h => by cases h; rfl) (fun v h => by cases h)
    (fun v h => by cases h; rfl) (fun v h => by cases h; rfl)
    (fun v h => by cases h; rfl) 0 (by norm_num)

/-! ## The parameter-set builder (`set_params`, components.py 1022-1095)

`set_params(model, galaxy)` first dispatches on the type of `model`:
a plain Python function is wrapped in `lm.Model`, an `lm.Model` is kept,
and anything else — including the string tags "bh" and "wimp" — raises
`ValueError` (line 1055).  After the dispatch, the halo-variant branch
conditions (lines 1065-1072) compare the `lm.Model` object with the
string "bh"/"wimp" (a Model never equals a string), with a freshly
constructed `lm.Model(...)` (compared by object identity, hence unequal)
and with the bare function (a Model is not a function object); every
comparison is False, so neither branch adds `arraysize`/`rho0` there.
The remaining parameters are added unconditionally. -/

/-- The kinds of value a caller can pass as `model`. -/
inductive ModelRef where
  | pyfunc (name : String)
  | lmModel (name : String)
  | strTag (s : String)

/-- The catalog fields `set_params` reads: `rho0`, `rc`, and the
black-hole mass (`none` models a catalog whose `blackhole` sub-record has
no `Mbh` entry, which the code catches as `KeyError`). -/
structure GalaxyRec where
  rho0 : ℚ
  rc : ℚ
  Mbh : Option ℚ

/-- One lmfit parameter: value, lower bound, upper bound (`none` is
unbounded) and whether the optimizer may vary it. -/
structure ParamSpec where
  value : ℚ
  min : Option ℚ
  max : Option ℚ
  vary : Bool
  deriving DecidableEq

/-- The Mbh parameter added at components.py lines 1085-1093: bounded
below by 1e8 and seeded from the catalog when the catalog black-hole mass
is nonzero; fixed at 0 when the mass is zero or the entry is absent. -/
def mbhParam (mbh : Option ℚ) : String × ParamSpec :=
  match mbh with
  | some m =>
      if m = 0 then ("Mbh", ⟨0, none, none, false⟩)
      else ("Mbh", ⟨m, some 100000000, none, true⟩)
  | none => ("Mbh", ⟨0, none, none, false⟩)

/-- `set_params` (components.py lines 1048-1095). -/
def set_params (model : ModelRef) (g : GalaxyRec) :
    Except String (List (String × ParamSpec)) :=
  match model with
  | .strTag _ => .error "ValueError: Invalid type for variable model"
  | _ =>
      .ok [("scale", ⟨g.rho0, none, none, false⟩),
           ("rcut", ⟨g.rc, some (1/10), none, true⟩),
           ("bpref", ⟨1, some 0, some 100, true⟩),
           ("dpref", ⟨1, some 0, some 100, true⟩),
           ("gpref", ⟨1, none, none, false⟩),
           mbhParam g.Mbh]

theorem mbhParam_fst (mbh : Option ℚ) : (mbhParam mbh).1 = "Mbh" := by
  cases mbh with
  | none => rfl
  | some m =>
      by_cases hz : m = 0
      · simp [mbhParam, hz]
      · simp [mbhParam, hz]

/-! ## Claim C5: acceptance of string model tags -/

/-- C5. The claim says the fitting surface accepts the string tags "bh"
and "wimp".  It does not: `set_params` raises its invalid-model
`ValueError` for every string, including the two recognized tags, while
accepting functions and `lm.Model` instances.  (In `bestfit` the same
tags survive until the fit evaluates `model(r, ...)` on a string and
crash with `TypeError`.) -/
theorem set_params_string_tag_rejected :
    set_params (.strTag "bh") ⟨2, 3, some 1000000000⟩
      = .error "ValueError: Invalid type for variable model" ∧
    set_params (.strTag "wimp") ⟨2, 3, some 1000000000⟩
      = .error "ValueError: Invalid type for variable model" ∧
    (set_params (.pyfunc "totalvelocity_halo") ⟨2, 3, some 1000000000⟩).isOk = true ∧
    (set_params (.lmModel "totalvelocity_halo") ⟨2, 3, some 1000000000⟩).isOk = true :=
  ⟨rfl, rfl, rfl, rfl⟩

/-! ## Claim C8: bounds and seeds built by the parameter-set builder -/

/-- C8. For every model reference that passes the dispatch (a function or
an lm.Model) and every galaxy record, the built parameter set has bpref
and dpref bounded to [0, 100] with initial value 1, gpref fixed at 1 and
not varied, rcut bounded below by 0.1 and seeded from the catalog core
radius, and Mbh bounded below by 1e8 and seeded from the catalog when the
catalog black-hole mass is nonzero but fixed at 0 when that mass is zero
or absent. -/
theorem set_params_bounds (model : ModelRef) (g : GalaxyRec) (m : ℚ)
    (ps : List (String × ParamSpec))
    (hok : set_params model g = .ok ps) :
    ps.lookup "bpref" = some ⟨1, some 0, some 100, true⟩ ∧
    ps.lookup "dpref" = some ⟨1, some 0, some 100, true⟩ ∧
    ps.lookup "gpref" = some ⟨1, none, none, false⟩ ∧
    ps.lookup "rcut" = some ⟨g.rc, some (1/10), none, true⟩ ∧
    ps.lookup "Mbh" = some (mbhParam g.Mbh).2 ∧
    (g.Mbh = some m → m ≠ 0 →
        (mbhParam g.Mbh).2 = ⟨m, some 100000000, none, true⟩) ∧
    (g.Mbh = some 0 → (mbhParam g.Mbh).2 = ⟨0, none, none, false⟩) ∧
    (g.Mbh = none → (mbhParam g.Mbh).2 = ⟨0, none, none, false⟩) := by
  have hps : ps = [("scale", ⟨g.rho0, none, none, false⟩),
      ("rcut", ⟨g.rc, some (1/10), none, true⟩),
      ("bpref", ⟨1, some 0, some 100, true⟩),
      ("dpref", ⟨1, some 0, some 100, true⟩),
      ("gpref", ⟨1, none, none, false⟩),
      mbhParam g.Mbh] := by
    cases model with
    | pyfunc n => cases hok; rfl
    | lmModel n => cases hok; rfl
    | strTag s => cases hok
  subst hps
  refine ⟨by simp [List.lookup], by simp [List.lookup], by simp [List.lookup],
    by simp [List.lookup], ?_, ?_, ?_, ?_⟩
  · rw [show mbhParam g.Mbh = ("Mbh", (mbhParam g.Mbh).2) from
      Prod.ext (mbhParam_fst g.Mbh) rfl]
    simp [List.lookup]
  · intro hm hz
    rw [hm]
    simp [mbhParam, hz]
  · intro hm
    rw [hm]
    simp [mbhParam]
  · intro hm
    rw [hm]
    simp [mbhParam]

/-- A concrete catalog record with a nonzero black-hole mass. -/
def sampleGalaxy : GalaxyRec := ⟨2, 3, some 1000000000⟩

/-- The parameter list that `set_params` builds for `sampleGalaxy`. -/
def sampleParams : List (String × ParamSpec) :=
  [("scale", ⟨2, none, none, false⟩),
   ("rcut", ⟨3, some (1/10), none, true⟩),
   ("bpref", ⟨1, some 0, some 100, true⟩),
   ("dpref", ⟨1, some 0, some 100, true⟩),
   ("gpref", ⟨1, none, none, false⟩),
   mbhParam (some 1000000000)]

/-- C8 witness: the bounds theorem applied to a concrete model reference
and galaxy record. -/
theorem set_params_bounds_witness :
    sampleParams.lookup "bpref" = some ⟨1, some 0, some 100, true⟩ ∧
    sampleParams.lookup "dpref" = some ⟨1, some 0, some 100, true⟩ ∧
    sampleParams.lookup "gpref" = some ⟨1, none, none, false⟩ ∧
    sampleParams.lookup "rcut" = some ⟨sampleGalaxy.rc, some (1/10), none, true⟩ ∧
    sampleParams.lookup "Mbh" = some (mbhParam sampleGalaxy.Mbh).2 ∧
    (sampleGalaxy.Mbh = some 1000000000 → (1000000000 : ℚ) ≠ 0 →
        (mbhParam sampleGalaxy.Mbh).2 = ⟨1000000000, some 100000000, none, true⟩) ∧
    (sampleGalaxy.Mbh = some 0 → (mbhParam sampleGalaxy.Mbh).2 = ⟨0, none, none, false⟩) ∧
    (sampleGalaxy.Mbh = none → (mbhParam sampleGalaxy.Mbh).2 = ⟨0, none, none, false⟩) :=
  set_params_bounds (.pyfunc "newmodel") sampleGalaxy 1000000000 sampleParams rfl

/-! ## The isothermal halo (`h_viso` / `halo`, components.py 729-858)

The vectorized computation at lines 782-791 is, elementwise: substitute a
tiny epsilon for r = 0 before dividing, evaluate
`sqrt(4*pi*G*rho00*rc^2*(1 - (rc/r)*arctan(r/rc)))`, force the r = 0
positions to exactly 0 with `np.where`, and clamp any remaining NaN
(negative sqrt argument) to 0. -/

/-- One element of the `h_viso` computation. -/
noncomputable def h_viso_elem (rc rho00 r : ℝ) : ℝ :=
  if r = 0 then 0
  else
    if 4 * Real.pi * G * rho00 * rc ^ 2 * (1 - (rc / r) * Real.arctan (r / rc)) < 0
    then 0
    else Real.sqrt (4 * Real.pi * G * rho00 * rc ^ 2
      * (1 - (rc / r) * Real.arctan (r / rc)))

/-- `h_viso` on the no-cache computation path (`load=False`),
vectorized over the radius array. -/
noncomputable def h_viso (rs : List ℝ) (rc rho00 : ℝ) : List ℝ :=
  rs.map (h_viso_elem rc rho00)

/-- `halo` (components.py lines 831-858): the default halo velocity,
`h_viso` with loading disabled. -/
noncomputable def halo (rs : List ℝ) (rc rho00 : ℝ) : List ℝ :=
  h_viso rs rc rho00

theorem arctan_gt_div (t : ℝ) (ht : 0 < t) :
    t / (1 + t ^ 2) < Real.arctan t := by
  have hFd : ∀ s : ℝ, HasDerivAt (fun u : ℝ => (1 + u ^ 2) * Real.arctan u - u)
      (2 * s * Real.arctan s) s := by
    intro s
    have h1 : HasDerivAt (fun u : ℝ => 1 + u ^ 2) (2 * s) s := by
      have h0 := (hasDerivAt_pow 2 s).const_add (1 : ℝ)
      simpa using h0
    have h4 := (h1.mul (Real.hasDerivAt_arctan s)).sub (hasDerivAt_id s)
    have hne : (1 + s ^ 2) ≠ 0 := by positivity
    have he : 2 * s * Real.arctan s
        = 2 * s * Real.arctan s + (1 + s ^ 2) * (1 / (1 + s ^ 2)) - 1 := by
      rw [mul_one_div, div_self hne]
      ring
    rw [he]
    exact h4
  have hmono : StrictMonoOn (fun u : ℝ => (1 + u ^ 2) * Real.arctan u - u)
      (Set.Ici 0) := by
    apply strictMonoOn_of_deriv_pos (convex_Ici 0)
    · exact (((continuous_const.add (continuous_pow 2)).mul
        Real.continuous_arctan).sub continuous_id).continuousOn
    · intro s hs
      rw [interior_Ici] at hs
      rw [(hFd s).deriv]
      have h0 : 0 < Real.arctan s := by
        have h2 := Real.arctan_strictMono (show (0:ℝ) < s from hs)
        simpa [Real.arctan_zero] using h2
      have h2 : (0:ℝ) < 2 * s := by linarith [Set.mem_Ioi.mp hs]
      exact mul_pos h2 h0
  have hFt := hmono Set.left_mem_Ici (Set.mem_Ici.mpr ht.le) ht
  have h00 : (fun u : ℝ => (1 + u ^ 2) * Real.arctan u - u) 0 = 0 := by
    simp [Real.arctan_zero]
  rw [h00] at hFt
  have hlt : t < (1 + t ^ 2) * Real.arctan t := by
    have h5 : (fun u : ℝ => (1 + u ^ 2) * Real.arctan u - u) t
        = (1 + t ^ 2) * Real.arctan t - t := rfl
    rw [h5] at hFt
    linarith
  rw [div_lt_iff (by positivity : (0:ℝ) < 1 + t ^ 2)]
  calc t < (1 + t ^ 2) * Real.arctan t := hlt
    _ = Real.arctan t * (1 + t ^ 2) := mul_comm _ _

theorem arctan_le_self_nonneg (t : ℝ) (ht : 0 ≤ t) : Real.arctan t ≤ t := by
  have hFd : ∀ s : ℝ, HasDerivAt (fun u : ℝ => u - Real.arctan u)
      (1 - 1 / (1 + s ^ 2)) s :=
    fun s => (hasDerivAt_id s).sub (Real.hasDerivAt_arctan s)
  have hmono : MonotoneOn (fun u : ℝ => u - Real.arctan u) (Set.Ici 0) := by
    apply monotoneOn_of_deriv_nonneg (convex_Ici 0)
    · exact (continuous_id.sub Real.continuous_arctan).continuousOn
    · intro s hs
      exact (hFd s).differentiableAt.differentiableWithinAt
    · intro s hs
      rw [(hFd s).deriv]
      have h1 : 1 / (1 + s ^ 2) ≤ 1 := by
        rw [div_le_one (by positivity)]
        nlinarith [sq_nonneg s]
      linarith
  have h2 := hmono Set.left_mem_Ici (Set.mem_Ici.mpr ht) ht
  simp only [Real.arctan_zero, sub_zero] at h2
  have h3 : (0:ℝ) - 0 ≤ t - Real.arctan t := by simpa using h2
  linarith

theorem arctan_div_antitone (t1 t2 : ℝ) (h1 : 0 < t1) (h12 : t1 ≤ t2) :
    Real.arctan t2 / t2 ≤ Real.arctan t1 / t1 := by
  rcases eq_or_lt_of_le h12 with rfl | hlt
  · exact le_refl _
  · have hanti : StrictAntiOn (fun u : ℝ => Real.arctan u / u) (Set.Ioi 0) := by
      apply strictAntiOn_of_deriv_neg (convex_Ioi 0)
      · exact ContinuousOn.div Real.continuous_arctan.continuousOn
          continuousOn_id (fun s hs => ne_of_gt hs)
      · intro s hs
        rw [interior_Ioi] at hs
        have hspos : (0:ℝ) < s := hs
        have hd : HasDerivAt (fun u : ℝ => Real.arctan u / u)
            ((1 / (1 + s ^ 2) * s - Real.arctan s * 1) / s ^ 2) s :=
          (Real.hasDerivAt_arctan s).div (hasDerivAt_id s) (ne_of_gt hspos)
        rw [hd.deriv]
        apply div_neg_of_neg_of_pos
        · have hb := arctan_gt_div s hspos
          have he : 1 / (1 + s ^ 2) * s = s / (1 + s ^ 2) := by ring
          rw [he, mul_one]
          linarith
        · positivity
    exact le_of_lt (hanti (Set.mem_Ioi.mpr h1)
      (Set.mem_Ioi.mpr (h1.trans_le h12)) hlt)

/-- Rewriting the velocity formula factor through t = r/rc. -/
theorem rc_div_mul_arctan (rc r : ℝ) :
    (rc / r) * Real.arctan (r / rc) = Real.arctan (r / rc) / (r / rc) := by
  rw [div_eq_mul_inv (Real.arctan (r / rc)), inv_div, mul_comm]

/-! ## Claim C3: isothermal halo boundary value and monotonicity -/

/-- C3. For every rc > 0 and rho00 > 0: the `h_viso` output is exactly 0
at every array position whose radius is 0 (epsilon substitution followed
by the `np.where` overwrite and NaN clamping), and the velocity is
monotonically non-decreasing in the radius beyond rc. -/
theorem h_viso_boundary_and_monotone (rc rho00 r1 r2 : ℝ) (rs : List ℝ) (i : ℕ)
    (hrc : 0 < rc) (hrho : 0 < rho00) (h1 : rc < r1) (h12 : r1 ≤ r2)
    (hi : i < rs.length) (hz : rs.getD i 0 = 0) :
    (h_viso rs rc rho00).getD i 0 = 0 ∧
    h_viso_elem rc rho00 r1 ≤ h_viso_elem rc rho00 r2 := by
  have hG : (0:ℝ) < G := by norm_num [G]
  constructor
  · unfold h_viso
    rw [List.getD_eq_getElem?_getD, List.getElem?_map, List.getElem?_eq_getElem hi]
    have hri : rs[i] = 0 := by
      rw [List.getD_eq_getElem?_getD, List.getElem?_eq_getElem hi] at hz
      exact hz
    simp [h_viso_elem, hri]
  · have hr1 : 0 < r1 := hrc.trans h1
    have hr2 : 0 < r2 := hr1.trans_le h12
    have ht1 : 0 < r1 / rc := div_pos hr1 hrc
    have ht2 : 0 < r2 / rc := div_pos hr2 hrc
    have ht12 : r1 / rc ≤ r2 / rc := (div_le_div_right hrc).mpr h12
    have hq := arctan_div_antitone (r1 / rc) (r2 / rc) ht1 ht12
    have hb1 : Real.arctan (r1 / rc) / (r1 / rc) ≤ 1 := by
      rw [div_le_one ht1]
      exact arctan_le_self_nonneg _ ht1.le
    have hC : (0:ℝ) ≤ 4 * Real.pi * G * rho00 * rc ^ 2 := by positivity
    have hinner : 1 - (rc / r1) * Real.arctan (r1 / rc)
        ≤ 1 - (rc / r2) * Real.arctan (r2 / rc) := by
      rw [rc_div_mul_arctan, rc_div_mul_arctan]
      linarith
    have hinner1 : 0 ≤ 1 - (rc / r1) * Real.arctan (r1 / rc) := by
      rw [rc_div_mul_arctan]
      linarith
    have harg1 : 0 ≤ 4 * Real.pi * G * rho00 * rc ^ 2
        * (1 - (rc / r1) * Real.arctan (r1 / rc)) := mul_nonneg hC hinner1
    have harg2 : 0 ≤ 4 * Real.pi * G * rho00 * rc ^ 2
        * (1 - (rc / r2) * Real.arctan (r2 / rc)) :=
      mul_nonneg hC (hinner1.trans hinner)
    have hargle : 4 * Real.pi * G * rho00 * rc ^ 2
        * (1 - (rc / r1) * Real.arctan (r1 / rc))
        ≤ 4 * Real.pi * G * rho00 * rc ^ 2
        * (1 - (rc / r2) * Real.arctan (r2 / rc)) :=
      mul_le_mul_of_nonneg_left hinner hC
    unfold h_viso_elem
    rw [if_neg (ne_of_gt hr1), if_neg (ne_of_gt hr2),
      if_neg (not_lt.mpr harg1), if_neg (not_lt.mpr harg2)]
    exact Real.sqrt_le_sqrt hargle

/-- C3 witness: the boundary-and-monotonicity theorem at rc = 1,
rho00 = 1, radii 2 ≤ 3, and the array [0] at position 0. -/
theorem h_viso_boundary_and_monotone_witness :
    (h_viso [0] 1 1).getD 0 0 = 0 ∧
    h_viso_elem 1 1 2 ≤ h_viso_elem 1 1 3 :=
  h_viso_boundary_and_monotone 1 1 2 3 [0] 0 one_pos one_pos
    (by norm_num) (by norm_num) (by norm_num) (by norm_num)

end GalacticSpin
